import Mathlib

/-!
Verification of the text-segmentation core of stevensStringLib.

The C++ source in stevensStringLib.h is shallowly embedded here: a
std::string is modelled as a `List Char`, std::string::find and
std::string::rfind are modelled from their documented semantics, streams
read by std::getline are modelled by the function `getlineSplit`, and each
library function is translated statement by statement.  Machine integers
are modelled as `Int`/`Nat`; the places where the source compares a signed
int with a size_t are modelled with the usual-arithmetic-conversion
semantics (a negative int converts to a huge unsigned value).
-/

namespace stevensStringLib

/-- Model of a match of `sub` inside `str` at offset `p`: the documented
condition for std::string::find to report position `p`, namely
`p + sub.size() <= str.size()` and the characters of `str` starting at `p`
equal `sub`.  An empty `sub` matches at every offset `p <= str.size()`. -/
def occursAt (str sub : List Char) (p : Nat) : Bool :=
  decide (p + sub.length ≤ str.length) && decide ((str.drop p).take sub.length = sub)

/-- Fuel-driven search for the least match offset that is at least `pos`.
The fuel `str.length + 2` always suffices, since offsets beyond
`str.length` never match. -/
def strFindAux (str sub : List Char) : Nat → Nat → Option Nat
  | 0, _ => none
  | fuel+1, pos =>
    if str.length < pos then none
    else if occursAt str sub pos then some pos
    else strFindAux str sub fuel (pos+1)

/-- Model of `str.find(sub, pos)` from the C++ standard library: the least
offset `p ≥ pos` with a match, or `none` for npos. -/
def strFind (str sub : List Char) (pos : Nat) : Option Nat :=
  strFindAux str sub (str.length + 2) pos

/-- Translation of `contains` (stevensStringLib.h).  The source stores
`str.find(substring)` in an int and returns true exactly when the find
succeeded: a found position `p` satisfies `0 <= p <= str.length()` and the
npos branch returns false, so the function collapses to a success test. -/
def contains (str substring : List Char) : Bool :=
  (strFind str substring 0).isSome

/-- Fuel-driven loop of `findAll`: record a match position, search again
from one past it.  Positions strictly increase and never exceed
`str.length`, so fuel `str.length + 1` always suffices. -/
def findAllAux (str substr : List Char) : Nat → Nat → List Nat
  | 0, _ => []
  | fuel+1, pos =>
    match strFind str substr pos with
    | some p => p :: findAllAux str substr fuel (p+1)
    | none => []

/-- Translation of `findAll` (stevensStringLib.h): `pos = str.find(substr, 0)`,
then repeatedly push `pos` and continue with `str.find(substr, pos+1)`. -/
def findAll (str substr : List Char) : List Nat :=
  findAllAux str substr (str.length + 1) 0

/-- Model of the std::getline tokenizing loop used by `separate` for a
single-character separator (and by `countLines` and `wrapToWidth` with
the newline separator): repeatedly read characters up to the next
delimiter or end of input; a read at end of input fails, so an empty
input yields no token and a trailing delimiter yields no extra empty
token. -/
def getlineSplit (c : Char) : List Char → List (List Char)
  | [] => []
  | x :: xs =>
    if x = c then
      [] :: getlineSplit c xs
    else
      match getlineSplit c xs with
      | [] => [[x]]
      | seg :: rest => (x :: seg) :: rest

/-- Translation of `word.erase(word.find(separator), separator.length())`
from the multi-character branch of `separate`: remove the first occurrence
of `separator` from `word`.  The source only reaches this call after
`contains` succeeded, so the `none` branch is unreachable. -/
def eraseAtFind (word separator : List Char) : List Char :=
  match strFind word separator 0 with
  | some p => word.take p ++ word.drop (p + separator.length)
  | none => word

/-- Translation of the character-accumulation loop of `separate` used when
the separator length is not 1: append each character to `word`; whenever
`word` contains the separator, erase the separator from it, push the
word, and clear it; after the loop push the remaining word. -/
def charLoopAux (separator : List Char) (word : List Char) : List Char → List (List Char)
  | [] => [word]
  | x :: rest =>
    let w := word ++ [x]
    if contains w separator then
      eraseAtFind w separator :: charLoopAux separator [] rest
    else
      charLoopAux separator w rest

/-- Translation of the `omitEmptyStrings` post-pass of `separate`:
`std::remove` plus `erase` deletes every empty string from the vector. -/
def postOmit (omitEmptyStrings : Bool) (segs : List (List Char)) : List (List Char) :=
  if omitEmptyStrings then segs.filter (fun s => !s.isEmpty) else segs

/-- Translation of `separate` (stevensStringLib.h).  For a one-character
separator the source tokenizes with std::getline and then inspects
`separatedStrings.back().back()`: when the vector is non-empty but its
last element is the empty string, `back()` on an empty std::string is
undefined behavior, modelled here as `none`.  Otherwise, if the last
character of the last segment equals the separator character it is popped.
For any other separator length the character-accumulation loop runs.
Finally empty strings are filtered out when `omitEmptyStrings` is true. -/
def separate (str separator : List Char) (omitEmptyStrings : Bool) :
    Option (List (List Char)) :=
  match separator with
  | [c] =>
    let segs := getlineSplit c str
    match segs.getLast? with
    | none => some (postOmit omitEmptyStrings segs)
    | some lastSeg =>
      match lastSeg.getLast? with
      | none => none
      | some ch =>
        let segs2 := if ch = c then segs.dropLast ++ [lastSeg.dropLast] else segs
        some (postOmit omitEmptyStrings segs2)
  | _ => some (postOmit omitEmptyStrings (charLoopAux separator [] str))

/-- Translation of `trim` (stevensStringLib.h).  A negative count is
passed through unchanged (the source has a TODO in place of error
handling).  The comparison `charsToTrim >= str.length()/2` converts the
non-negative int to size_t, and `substr(n, len - 2n)` keeps the
characters from offset `n` for `len - 2n` characters. -/
def trim (str : List Char) (charsToTrim : Int) : List Char :=
  if charsToTrim < 0 then str
  else if str.length / 2 ≤ charsToTrim.toNat then []
  else (str.drop charsToTrim.toNat).take (str.length - 2 * charsToTrim.toNat)

/-- Translation of `countLines` (stevensStringLib.h): the number of
successful `std::getline(ss, line)` reads from the string. -/
def countLines (str : List Char) : Nat :=
  (getlineSplit '\n' str).length

/-- Model of `line.rfind(" ", pos)`: the greatest offset `i <= pos` at
which the one-character string fits inside `line`, i.e. the last index
`i <= pos` with `line[i]` equal to the character. -/
def rfindChar (line : List Char) (c : Char) (pos : Nat) : Option Nat :=
  ((List.range line.length).filter
    (fun i => decide (i ≤ pos) && decide (line.get? i = some c))).getLast?

/-- Fuel-driven translation of the inner `while(true)` loop of
`wrapToWidth` on one line.  The guard `line.length() > wrapWidth`
compares a size_t with an int, so a negative width converts to a huge
unsigned value and the guard is false; for a non-negative width the
source either breaks at the last space at or before the width, or hard
cuts at the width, and in both branches continues with
`line.substr(cut+1)`, dropping the character at the cut.  Returns the
emitted output together with the final value of `line`.  Every iteration
shortens the line, so fuel `line.length + 1` always suffices. -/
def wrapLineAux (wrapWidth : Int) : Nat → List Char → List Char × List Char
  | 0, line => (line, line)
  | fuel+1, line =>
    if 0 ≤ wrapWidth ∧ wrapWidth.toNat < line.length then
      match rfindChar line ' ' wrapWidth.toNat with
      | none =>
        let r := wrapLineAux wrapWidth fuel (line.drop (wrapWidth.toNat + 1))
        (line.take wrapWidth.toNat ++ '\n' :: r.1, r.2)
      | some idx =>
        let r := wrapLineAux wrapWidth fuel (line.drop (idx + 1))
        (line.take idx ++ '\n' :: r.1, r.2)
    else (line, line)

/-- The inner loop of `wrapToWidth` with adequate fuel. -/
def wrapLine (wrapWidth : Int) (line : List Char) : List Char × List Char :=
  wrapLineAux wrapWidth (line.length + 1) line

/-- Translation of the outer `while(getline(in, line))` loop of
`wrapToWidth`: wrap each line, then append a newline when more lines
follow (`currLineNum < numberOfLines`) or when the final value of `line`
is empty and the input had exactly one getline line. -/
def wrapLinesGo (wrapWidth : Int) (numberOfLines : Nat) :
    Nat → List (List Char) → List Char
  | _, [] => []
  | currLineNum, line :: rest =>
    let r := wrapLine wrapWidth line
    r.1 ++
      (if currLineNum + 1 < numberOfLines ∨ (r.2.length = 0 ∧ numberOfLines = 1)
       then ['\n'] else []) ++
      wrapLinesGo wrapWidth numberOfLines (currLineNum + 1) rest

/-- Translation of `wrapToWidth` (stevensStringLib.h): split the input at
newlines with getline, count the getline lines with `countLines`, and run
the per-line wrapping loop. -/
def wrapToWidth (str : List Char) (wrapWidth : Int) : List Char :=
  wrapLinesGo wrapWidth (countLines str) 0 (getlineSplit '\n' str)

/-- Model of `isdigit` in the default C locale, as used by the numeric
validators. -/
def isDigitC (c : Char) : Bool :=
  decide ('0' ≤ c) && decide (c ≤ '9')

/-- The body of `dropNeg`: the scanning loops of `isInteger` and
`isFloat` skip a minus sign at index 0 and examine every other index, so
they are equivalent to scanning the text with a leading minus removed. -/
def dropNeg (s : List Char) : List Char :=
  match s with
  | c :: t => if c = '-' then t else s
  | [] => []

/-- Translation of the scanning loop of `isFloat` after the optional
leading minus: a decimal point is accepted once (tracked by
`seenDecimalPoint`), every other character must be a digit, otherwise the
function returns false immediately (modelled as `none`).  On normal exit
the final value of `seenDecimalPoint` is returned. -/
def floatLoopFrom : Bool → List Char → Option Bool
  | seen, [] => some seen
  | seen, c :: rest =>
    if ¬seen ∧ c = '.' then floatLoopFrom true rest
    else if isDigitC c then floatLoopFrom seen rest
    else none

/-- Numeric value of a digit string. -/
def digitsToNat (ds : List Char) : Nat :=
  ds.foldl (fun a c => 10 * a + (c.toNat - '0'.toNat)) 0

/-- The largest finite IEEE double, `(2^53 - 1) * 2^971`, used to model
the double-precision range check performed by std::from_chars. -/
def dblMaxNum : Nat := (2 ^ 53 - 1) * 2 ^ 971

/-- Model of the number pattern consumed by
`std::from_chars(first, last, value, chars_format::general)` on the
strings reachable in `isFloat`: an optional minus, a run of digits, an
optional decimal point followed by a run of digits.  Returns the digit
runs before and after the point. -/
def fromCharsParse (s : List Char) : List Char × List Char :=
  let r := dropNeg s
  let d1 := r.takeWhile isDigitC
  let r2 := r.drop d1.length
  match r2 with
  | '.' :: t => (d1, t.takeWhile isDigitC)
  | _ => (d1, [])

/-- Model of the double-precision range condition checked by
std::from_chars: the parsed magnitude `digits1.digits2` is at most the
largest finite double.  Exact boundary rounding and gradual underflow are
not modelled; no claim in this development depends on inputs near those
boundaries. -/
def doubleRangeOk (s : List Char) : Bool :=
  let p := fromCharsParse s
  decide (digitsToNat (p.1 ++ p.2) ≤ dblMaxNum * 10 ^ p.2.length)

/-- Model of the `std::from_chars` call in `isFloat` reporting no error:
the pattern must contain at least one digit (otherwise
`std::errc::invalid_argument`), and the magnitude must be representable
(otherwise `std::errc::result_out_of_range`).  The source ignores
`res.ptr`, so trailing unparsed input is irrelevant. -/
def fromCharsFloatOk (s : List Char) : Bool :=
  let p := fromCharsParse s
  (!p.1.isEmpty || !p.2.isEmpty) && doubleRangeOk s

/-- Translation of `isFloat` (stevensStringLib.h): run the scanning loop
with the index-0 minus skipped; return false on a scan failure or when no
decimal point was seen; otherwise the result is that of the
std::from_chars conversion.  The decimal-point character of the default
global locale is the period. -/
def isFloat (str : List Char) : Bool :=
  match floatLoopFrom false (dropNeg str) with
  | some true => fromCharsFloatOk str
  | _ => false

/-- Follows the wording of the spec (section 4.5): the text matches the
grammar minus-sign? digit* decimalPoint digit* and contains exactly one
decimal-point character.  Equivalently, after an optional leading minus
every character is a digit or the point, and the point occurs exactly
once. -/
def specFloatGrammar (s : List Char) : Bool :=
  let r := dropNeg s
  (r.count '.' == 1) && r.all (fun c => isDigitC c || c == '.')

/-- Spec-level count of the occurrences of `separator` found by
non-overlapping left-to-right scanning: find the first occurrence, drop
through the end of it, repeat.  Fuel `str.length + 1` suffices for a
non-empty separator since each step consumes at least one character. -/
def greedyCountAux (separator : List Char) : Nat → List Char → Nat
  | 0, _ => 0
  | fuel+1, s =>
    match strFind s separator 0 with
    | some p => greedyCountAux separator fuel (s.drop (p + separator.length)) + 1
    | none => 0

/-- Non-overlapping left-to-right occurrence count, used to state the
amended segment-count property of `separate`. -/
def greedyCount (str separator : List Char) : Nat :=
  greedyCountAux separator (str.length + 1) str

/-- Concatenation of segments with a separator reinserted between
consecutive segments, used to state the round-trip property of
`separate`. -/
def joinWith (sep : List Char) : List (List Char) → List Char
  | [] => []
  | [x] => x
  | x :: y :: rest => x ++ sep ++ joinWith sep (y :: rest)


theorem occursAt_bound {str sub : List Char} {p : Nat} (h : occursAt str sub p = true) :
    p + sub.length ≤ str.length := by
  simp only [occursAt, Bool.and_eq_true, decide_eq_true_eq] at h
  exact h.1

theorem occursAt_false_of_lt {str sub : List Char} {p : Nat} (h : str.length < p) :
    occursAt str sub p = false := by
  simp only [occursAt, Bool.and_eq_false_iff, decide_eq_false_iff_not]
  left
  omega

theorem strFindAux_some {str sub : List Char} :
    ∀ fuel pos p, strFindAux str sub fuel pos = some p →
      pos ≤ p ∧ occursAt str sub p = true ∧
        ∀ q, pos ≤ q → q < p → occursAt str sub q = false := by
  intro fuel
  induction fuel with
  | zero =>
    intro pos p h
    simp [strFindAux] at h
  | succ n ih =>
    intro pos p h
    simp only [strFindAux] at h
    by_cases h1 : str.length < pos
    · rw [if_pos h1] at h
      exact absurd h (by simp)
    · rw [if_neg h1] at h
      by_cases h2 : occursAt str sub pos = true
      · rw [if_pos h2] at h
        have hp : pos = p := by simpa using h
        subst hp
        exact ⟨Nat.le_refl _, h2, fun q hq1 hq2 => absurd hq1 (by omega)⟩
      · rw [if_neg h2] at h
        obtain ⟨hle, hocc, hmin⟩ := ih (pos + 1) p h
        refine ⟨by omega, hocc, ?_⟩
        intro q hq1 hq2
        rcases Nat.eq_or_lt_of_le hq1 with rfl | hlt
        · exact Bool.eq_false_iff.mpr h2
        · exact hmin q (by omega) hq2

theorem strFindAux_none {str sub : List Char} :
    ∀ fuel pos, str.length + 2 ≤ fuel + pos → strFindAux str sub fuel pos = none →
      ∀ q, pos ≤ q → occursAt str sub q = false := by
  intro fuel
  induction fuel with
  | zero =>
    intro pos hfuel _ q hq
    exact occursAt_false_of_lt (by omega)
  | succ n ih =>
    intro pos hfuel h q hq
    simp only [strFindAux] at h
    by_cases h1 : str.length < pos
    · exact occursAt_false_of_lt (by omega)
    · rw [if_neg h1] at h
      by_cases h2 : occursAt str sub pos = true
      · rw [if_pos h2] at h
        exact absurd h (by simp)
      · rw [if_neg h2] at h
        rcases Nat.eq_or_lt_of_le hq with rfl | hlt
        · exact Bool.eq_false_iff.mpr h2
        · exact ih (pos + 1) (by omega) h q (by omega)

theorem strFind_some {str sub : List Char} {pos p : Nat}
    (h : strFind str sub pos = some p) :
    pos ≤ p ∧ occursAt str sub p = true ∧
      ∀ q, pos ≤ q → q < p → occursAt str sub q = false :=
  strFindAux_some _ _ _ h

theorem strFind_none {str sub : List Char} {pos : Nat}
    (h : strFind str sub pos = none) :
    ∀ q, pos ≤ q → occursAt str sub q = false :=
  strFindAux_none _ _ (by omega) h

theorem strFind_eq_some_of {str sub : List Char} {pos p : Nat}
    (hpos : pos ≤ p) (hp : occursAt str sub p = true)
    (hmin : ∀ q, pos ≤ q → q < p → occursAt str sub q = false) :
    strFind str sub pos = some p := by
  cases h : strFind str sub pos with
  | none =>
    have := strFind_none h p hpos
    rw [hp] at this
    exact absurd this (by simp)
  | some r =>
    obtain ⟨h1, h2, h3⟩ := strFind_some h
    have hrp : ¬ r < p := fun hlt => by
      have := hmin r h1 hlt
      rw [h2] at this
      exact absurd this (by simp)
    have hpr : ¬ p < r := fun hlt => by
      have := h3 p hpos hlt
      rw [hp] at this
      exact absurd this (by simp)
    have : r = p := by omega
    rw [this]

theorem filter_range_split {n p : Nat} {pred : Nat → Bool} (hp : p < n)
    (hpt : pred p = true) (hmin : ∀ q, q < p → pred q = false) :
    (List.range n).filter pred =
      p :: (List.range n).filter (fun q => decide (p < q) && pred q) := by
  induction n with
  | zero => omega
  | succ m ih =>
    rw [List.range_succ, List.filter_append, List.filter_append]
    rcases Nat.lt_or_ge p m with hpm | hpm
    · rw [ih hpm, List.cons_append]
      congr 1
      cases hm : pred m with
      | false => simp [List.filter, hm]
      | true => simp [List.filter, hm, hpm]
    · have hpm2 : p = m := by omega
      subst hpm2
      have h1 : (List.range p).filter pred = [] := by
        rw [List.filter_eq_nil_iff]
        intro a ha
        rw [List.mem_range] at ha
        simp [hmin a ha]
      have h2 : (List.range p).filter (fun q => decide (p < q) && pred q) = [] := by
        rw [List.filter_eq_nil_iff]
        intro a ha
        rw [List.mem_range] at ha
        simp
        intro hpa
        omega
      rw [h1, h2]
      simp [List.filter, hpt]

theorem findAllAux_eq {str sub : List Char} :
    ∀ fuel pos, str.length + 1 ≤ fuel + pos →
      findAllAux str sub fuel pos =
        (List.range (str.length + 1)).filter
          (fun q => decide (pos ≤ q) && occursAt str sub q) := by
  intro fuel
  induction fuel with
  | zero =>
    intro pos hfuel
    show ([] : List Nat) = _
    symm
    rw [List.filter_eq_nil_iff]
    intro a ha
    rw [List.mem_range] at ha
    simp only [Bool.and_eq_true, decide_eq_true_eq, not_and]
    intro hpa
    simp [occursAt_false_of_lt (show str.length < a by omega)]
  | succ n ih =>
    intro pos hfuel
    simp only [findAllAux]
    cases hf : strFind str sub pos with
    | none =>
      show ([] : List Nat) = _
      symm
      rw [List.filter_eq_nil_iff]
      intro a ha
      simp only [Bool.and_eq_true, decide_eq_true_eq, not_and]
      intro hpa
      simp [strFind_none hf a hpa]
    | some p =>
      show p :: findAllAux str sub n (p + 1) = _
      obtain ⟨hle, hocc, hmin⟩ := strFind_some hf
      have hplen : p ≤ str.length := by
        have := occursAt_bound hocc
        omega
      have hsplit := @filter_range_split (str.length + 1) p
        (fun q => decide (pos ≤ q) && occursAt str sub q)
        (by omega) (by simp [hle, hocc])
        (fun q hq => by
          by_cases hq2 : pos ≤ q
          · simp [hq2, hmin q hq2 hq]
          · simp [hq2])
      rw [hsplit, ih (p + 1) (by omega)]
      congr 1
      apply List.filter_congr
      intro x hx
      by_cases h1 : p + 1 ≤ x
      · have h2 : pos ≤ x := by omega
        have h3 : p < x := by omega
        simp [h1, h2, h3]
      · have h3 : ¬ p < x := by omega
        simp [h1, h3]

theorem findAll_eq_filter (str sub : List Char) :
    findAll str sub = (List.range (str.length + 1)).filter (occursAt str sub) := by
  rw [findAll, findAllAux_eq (str.length + 1) 0 (by omega)]
  apply List.filter_congr
  intro x hx
  simp

theorem occursAt_cons_succ {x : Char} {xs sub : List Char} {q : Nat} :
    occursAt (x :: xs) sub (q + 1) = occursAt xs sub q := by
  have harith : (q + 1 + sub.length ≤ xs.length + 1) ↔ (q + sub.length ≤ xs.length) := by
    omega
  simp [occursAt, decide_eq_decide.mpr harith]

theorem countP_occursAt_single (T : List Char) (c : Char) :
    (List.range (T.length + 1)).countP (occursAt T [c]) = T.count c := by
  induction T with
  | nil =>
    rw [show ([] : List Char).length + 1 = 1 from rfl,
      show List.range 1 = [0] from rfl]
    simp [occursAt]
  | cons x xs ih =>
    show (List.range (xs.length + 1 + 1)).countP (occursAt (x :: xs) [c]) = _
    rw [List.range_succ_eq_map, List.countP_cons, List.countP_map]
    have hcomp : (occursAt (x :: xs) [c] ∘ Nat.succ) = occursAt xs [c] := by
      funext q
      exact occursAt_cons_succ
    have h0 : occursAt (x :: xs) [c] 0 = decide (x = c) := by
      have h1 : (0 + 1 ≤ xs.length + 1) := by omega
      simp [occursAt, h1]
    rw [hcomp, ih, List.count_cons, h0]
    by_cases hx : x = c
    · simp [hx]
    · simp [hx]

theorem findAll_single_length (T : List Char) (c : Char) :
    (findAll T [c]).length = T.count c := by
  rw [findAll_eq_filter, ← List.countP_eq_length_filter, countP_occursAt_single]

theorem getlineSplit_eq_nil_iff {c : Char} {T : List Char} :
    getlineSplit c T = [] ↔ T = [] := by
  constructor
  · intro h
    cases T with
    | nil => rfl
    | cons x xs =>
      simp only [getlineSplit] at h
      by_cases hx : x = c
      · rw [if_pos hx] at h
        exact absurd h (by simp)
      · rw [if_neg hx] at h
        cases hgs : getlineSplit c xs with
        | nil => rw [hgs] at h; exact absurd h (by simp)
        | cons s r => rw [hgs] at h; exact absurd h (by simp)
  · intro h
    rw [h]
    rfl

theorem not_mem_of_mem_getlineSplit {c : Char} {T : List Char} :
    ∀ seg ∈ getlineSplit c T, c ∉ seg := by
  induction T with
  | nil =>
    intro seg hseg
    simp [getlineSplit] at hseg
  | cons x xs ih =>
    intro seg hseg
    simp only [getlineSplit] at hseg
    by_cases hx : x = c
    · rw [if_pos hx] at hseg
      rcases List.mem_cons.mp hseg with rfl | h
      · simp
      · exact ih seg h
    · rw [if_neg hx] at hseg
      cases hgs : getlineSplit c xs with
      | nil =>
        rw [hgs] at hseg
        have : seg = [x] := by simpa using hseg
        rw [this]
        simp
        exact fun h => hx h.symm
      | cons s r =>
        rw [hgs] at hseg
        rcases List.mem_cons.mp hseg with rfl | h
        · have hs : c ∉ s := ih s (by rw [hgs]; exact List.mem_cons_self s r)
          simp [hs]
          exact fun h => hx h.symm
        · exact ih seg (by rw [hgs]; exact List.mem_cons_of_mem s h)

theorem getlineSplit_cons (c x : Char) (xs : List Char) :
    getlineSplit c (x :: xs) =
      if x = c then [] :: getlineSplit c xs
      else
        match getlineSplit c xs with
        | [] => [[x]]
        | seg :: rest => (x :: seg) :: rest := rfl

theorem getlineSplit_length {c : Char} {T : List Char} (h0 : T ≠ [])
    (h1 : T.getLast? ≠ some c) :
    (getlineSplit c T).length = T.count c + 1 := by
  induction T with
  | nil => exact absurd rfl h0
  | cons x xs ih =>
    cases xs with
    | nil =>
      have hx : x ≠ c := fun he => h1 (by rw [he]; rfl)
      simp [getlineSplit, hx, List.count_cons]
    | cons y ys =>
      have h1y : (y :: ys).getLast? ≠ some c := by
        rwa [List.getLast?_cons_cons] at h1
      have ihy := ih (by simp) h1y
      by_cases hx : x = c
      · subst hx
        rw [getlineSplit_cons, if_pos rfl, List.length_cons, ihy,
          List.count_cons_self]
      · rw [getlineSplit_cons, if_neg hx]
        cases hgs : getlineSplit c (y :: ys) with
        | nil => exact absurd (getlineSplit_eq_nil_iff.mp hgs) (by simp)
        | cons s r =>
          show ((x :: s) :: r).length = List.count c (x :: y :: ys) + 1
          have hcnt : List.count c (x :: y :: ys) = List.count c (y :: ys) := by
            rw [List.count_cons]
            simp [hx]
          rw [hcnt, ← ihy, hgs]
          rfl

theorem getlineSplit_getLast_ne_nil {c : Char} {T : List Char} (h0 : T ≠ [])
    (h1 : T.getLast? ≠ some c) :
    (getlineSplit c T).getLast? ≠ some [] := by
  induction T with
  | nil => exact absurd rfl h0
  | cons x xs ih =>
    cases xs with
    | nil =>
      have hx : x ≠ c := fun he => h1 (by rw [he]; rfl)
      simp [getlineSplit, hx]
    | cons y ys =>
      have h1y : (y :: ys).getLast? ≠ some c := by
        rwa [List.getLast?_cons_cons] at h1
      have ihy := ih (by simp) h1y
      by_cases hx : x = c
      · rw [getlineSplit_cons, if_pos hx]
        cases hgs : getlineSplit c (y :: ys) with
        | nil => exact absurd (getlineSplit_eq_nil_iff.mp hgs) (by simp)
        | cons s r =>
          rw [hgs] at ihy
          rw [List.getLast?_cons_cons]
          exact ihy
      · rw [getlineSplit_cons, if_neg hx]
        cases hgs : getlineSplit c (y :: ys) with
        | nil => exact absurd (getlineSplit_eq_nil_iff.mp hgs) (by simp)
        | cons s r =>
          rw [hgs] at ihy
          show ((x :: s) :: r).getLast? ≠ some []
          cases r with
          | nil => simp
          | cons z r2 =>
            rw [List.getLast?_cons_cons] at ihy ⊢
            exact ihy

theorem separate_single_eq {c : Char} {T : List Char} (h1 : T.getLast? ≠ some c) :
    separate T [c] false = some (getlineSplit c T) := by
  show (match (getlineSplit c T).getLast? with
    | none => some (postOmit false (getlineSplit c T))
    | some lastSeg =>
      match lastSeg.getLast? with
      | none => none
      | some ch =>
        some (postOmit false
          (if ch = c then (getlineSplit c T).dropLast ++ [lastSeg.dropLast]
           else getlineSplit c T))) = _
  cases hL : (getlineSplit c T).getLast? with
  | none => simp [postOmit]
  | some lastSeg =>
    have hT0 : T ≠ [] := by
      intro h
      rw [h] at hL
      exact absurd hL (by simp [getlineSplit])
    have hlast : lastSeg ≠ [] := by
      intro h
      rw [h] at hL
      exact getlineSplit_getLast_ne_nil hT0 h1 hL
    obtain ⟨ch, hch⟩ : ∃ ch, lastSeg.getLast? = some ch := by
      cases hc : lastSeg.getLast? with
      | none => exact absurd (List.getLast?_eq_none_iff.mp hc) hlast
      | some ch => exact ⟨ch, rfl⟩
    have hmem : lastSeg ∈ getlineSplit c T := by
      obtain ⟨ys, hys⟩ := List.getLast?_eq_some_iff.mp hL
      rw [hys]
      simp
    have hchmem : ch ∈ lastSeg := by
      obtain ⟨ys, hys⟩ := List.getLast?_eq_some_iff.mp hch
      rw [hys]
      simp
    have hcc : ch ≠ c := fun he =>
      not_mem_of_mem_getlineSplit lastSeg hmem (he ▸ hchmem)
    simp [hch, hcc, postOmit]

theorem joinWith_cons_cons {sep x s : List Char} {r : List (List Char)} :
    joinWith sep ((x ++ s) :: r) = x ++ joinWith sep (s :: r) := by
  cases r with
  | nil => rfl
  | cons z r2 =>
    show (x ++ s) ++ sep ++ joinWith sep (z :: r2) = x ++ (s ++ sep ++ joinWith sep (z :: r2))
    simp [List.append_assoc]

theorem joinWith_getlineSplit {c : Char} {T : List Char}
    (h1 : T.getLast? ≠ some c) :
    joinWith [c] (getlineSplit c T) = T := by
  induction T with
  | nil => rfl
  | cons x xs ih =>
    cases xs with
    | nil =>
      have hx : x ≠ c := fun he => h1 (by rw [he]; rfl)
      rw [getlineSplit_cons, if_neg hx]
      rfl
    | cons y ys =>
      have h1y : (y :: ys).getLast? ≠ some c := by
        rwa [List.getLast?_cons_cons] at h1
      have ihy := ih h1y
      by_cases hx : x = c
      · subst hx
        rw [getlineSplit_cons, if_pos rfl]
        cases hgs : getlineSplit x (y :: ys) with
        | nil => exact absurd (getlineSplit_eq_nil_iff.mp hgs) (by simp)
        | cons s r =>
          rw [hgs] at ihy
          show [] ++ [x] ++ joinWith [x] (s :: r) = x :: y :: ys
          rw [ihy]
          rfl
      · rw [getlineSplit_cons, if_neg hx]
        cases hgs : getlineSplit c (y :: ys) with
        | nil => exact absurd (getlineSplit_eq_nil_iff.mp hgs) (by simp)
        | cons s r =>
          rw [hgs] at ihy
          show joinWith [c] ((x :: s) :: r) = x :: y :: ys
          have hx1 : (x :: s) = [x] ++ s := rfl
          rw [hx1, joinWith_cons_cons, ihy]
          rfl

theorem contains_nil_eq_false {sep : List Char} (hsep : sep ≠ []) :
    contains [] sep = false := by
  cases hf : strFind [] sep 0 with
  | none => simp [contains, hf]
  | some p =>
    obtain ⟨-, hocc, -⟩ := strFind_some hf
    have hb := occursAt_bound hocc
    simp at hb
    exact absurd hb.2 hsep

theorem contains_false_strFind {s sep : List Char} (hw : contains s sep = false) :
    strFind s sep 0 = none := by
  rw [contains] at hw
  cases hf : strFind s sep 0 with
  | none => rfl
  | some p =>
    rw [hf] at hw
    exact absurd hw (by simp)

theorem occursAt_append_left {w rest sub : List Char} {q : Nat}
    (h : q + sub.length ≤ w.length) (hocc : occursAt (w ++ rest) sub q = true) :
    occursAt w sub q = true := by
  simp only [occursAt, Bool.and_eq_true, decide_eq_true_eq] at hocc ⊢
  obtain ⟨-, htake⟩ := hocc
  rw [List.drop_append_of_le_length (by omega)] at htake
  rw [List.take_append_of_le_length (by rw [List.length_drop]; omega)] at htake
  exact ⟨h, htake⟩

theorem first_occurrence_at_end {word sub : List Char} {x : Char}
    (hword : contains word sub = false)
    (hcont : contains (word ++ [x]) sub = true) :
    sub.length ≤ word.length + 1 ∧
    strFind (word ++ [x]) sub 0 = some (word.length + 1 - sub.length) ∧
    (word ++ [x]).take (word.length + 1 - sub.length) ++ sub = word ++ [x] := by
  obtain ⟨p, hp⟩ : ∃ p, strFind (word ++ [x]) sub 0 = some p := by
    cases hf : strFind (word ++ [x]) sub 0 with
    | none => rw [contains, hf] at hcont; exact absurd hcont (by simp)
    | some p => exact ⟨p, rfl⟩
  obtain ⟨-, hocc, -⟩ := strFind_some hp
  have hlen : p + sub.length ≤ word.length + 1 := by
    have := occursAt_bound hocc
    simpa using this
  have hEnd : p + sub.length = word.length + 1 := by
    by_contra hne
    have h2 : p + sub.length ≤ word.length := by omega
    have h3 : occursAt word sub p = true := occursAt_append_left h2 hocc
    rcases hf : strFind word sub 0 with - | q
    · have := strFind_none hf p (Nat.zero_le p)
      rw [h3] at this
      exact absurd this (by simp)
    · rw [contains, hf] at hword
      exact absurd hword (by simp)
  have hple : sub.length ≤ word.length + 1 := by omega
  have hpeq : p = word.length + 1 - sub.length := by omega
  refine ⟨hple, hpeq ▸ hp, ?_⟩
  have hdrop : (word ++ [x]).drop p = sub := by
    have htake : ((word ++ [x]).drop p).take sub.length = sub := by
      simp only [occursAt, Bool.and_eq_true, decide_eq_true_eq] at hocc
      exact hocc.2
    have hdlen : ((word ++ [x]).drop p).length ≤ sub.length := by
      simp only [List.length_drop, List.length_append, List.length_cons,
        List.length_nil]
      omega
    rw [← htake, List.take_of_length_le hdlen]
  rw [← hpeq, ← hdrop, List.take_append_drop]

theorem strFind_extend {word rest sub : List Char} {x : Char}
    (hword : contains word sub = false)
    (hcont : contains (word ++ [x]) sub = true) :
    strFind (word ++ [x] ++ rest) sub 0 =
      some (word.length + 1 - sub.length) := by
  obtain ⟨hple, hp, htake⟩ := first_occurrence_at_end hword hcont
  have hdrop : (word ++ [x]).drop (word.length + 1 - sub.length) = sub := by
    have h2 := List.take_append_drop (word.length + 1 - sub.length) (word ++ [x])
    exact (List.append_cancel_left (htake.trans h2.symm)).symm
  apply strFind_eq_some_of (Nat.zero_le _)
  · simp only [occursAt, Bool.and_eq_true, decide_eq_true_eq]
    constructor
    · simp
      omega
    · rw [List.drop_append_of_le_length (by simp), hdrop,
        List.take_append_of_le_length (Nat.le_refl _), List.take_length]
  · intro q hq0 hqp
    apply Bool.eq_false_iff.mpr
    intro hocc
    have hb := occursAt_bound hocc
    simp at hb
    have h2 : q + sub.length ≤ word.length := by omega
    have h3 : occursAt word sub q = true := by
      have hassoc : word ++ [x] ++ rest = word ++ ([x] ++ rest) := by
        simp
      rw [hassoc] at hocc
      exact occursAt_append_left h2 hocc
    rcases hf : strFind word sub 0 with - | r
    · have := strFind_none hf q (Nat.zero_le q)
      rw [h3] at this
      exact absurd this (by simp)
    · rw [contains, hf] at hword
      exact absurd hword (by simp)

theorem charLoopAux_ne_nil (sep : List Char) :
    ∀ rest word, charLoopAux sep word rest ≠ [] := by
  intro rest
  induction rest with
  | nil => intro word; simp [charLoopAux]
  | cons x r ih =>
    intro word
    simp only [charLoopAux]
    by_cases hc : contains (word ++ [x]) sep = true
    · rw [if_pos hc]
      simp
    · rw [if_neg hc]
      exact ih (word ++ [x])

theorem greedyCountAux_congr {sep : List Char} (hsep : sep ≠ []) :
    ∀ fuel1 fuel2 s, s.length < fuel1 → s.length < fuel2 →
      greedyCountAux sep fuel1 s = greedyCountAux sep fuel2 s := by
  intro fuel1
  induction fuel1 with
  | zero =>
    intro fuel2 s h1 h2
    omega
  | succ n ih =>
    intro fuel2 s h1 h2
    cases fuel2 with
    | zero => omega
    | succ m =>
      show (match strFind s sep 0 with
        | some p => greedyCountAux sep n (s.drop (p + sep.length)) + 1
        | none => 0) = (match strFind s sep 0 with
        | some p => greedyCountAux sep m (s.drop (p + sep.length)) + 1
        | none => 0)
      cases hf : strFind s sep 0 with
      | none => rfl
      | some p =>
        obtain ⟨-, hocc, -⟩ := strFind_some hf
        have hb := occursAt_bound hocc
        have hs1 : 1 ≤ sep.length := by
          cases sep with
          | nil => exact absurd rfl hsep
          | cons a t => simp
        show greedyCountAux sep n (s.drop (p + sep.length)) + 1 =
          greedyCountAux sep m (s.drop (p + sep.length)) + 1
        rw [ih m (s.drop (p + sep.length)) (by rw [List.length_drop]; omega)
          (by rw [List.length_drop]; omega)]

theorem greedyCount_eq_some {sep s : List Char} {p : Nat} (hsep : sep ≠ [])
    (hf : strFind s sep 0 = some p) :
    greedyCount s sep = greedyCount (s.drop (p + sep.length)) sep + 1 := by
  obtain ⟨-, hocc, -⟩ := strFind_some hf
  have hb := occursAt_bound hocc
  have hs1 : 1 ≤ sep.length := by
    cases sep with
    | nil => exact absurd rfl hsep
    | cons a t => simp
  show (match strFind s sep 0 with
    | some p => greedyCountAux sep s.length (s.drop (p + sep.length)) + 1
    | none => 0) = _
  rw [hf]
  show greedyCountAux sep s.length (s.drop (p + sep.length)) + 1 = _
  congr 1
  exact greedyCountAux_congr hsep s.length ((s.drop (p + sep.length)).length + 1)
    (s.drop (p + sep.length)) (by rw [List.length_drop]; omega) (Nat.lt_succ_self _)

theorem greedyCount_eq_none {sep s : List Char} (hf : strFind s sep 0 = none) :
    greedyCount s sep = 0 := by
  show (match strFind s sep 0 with
    | some p => greedyCountAux sep s.length (s.drop (p + sep.length)) + 1
    | none => 0) = 0
  rw [hf]

theorem joinWith_charLoopAux {sep : List Char} (hsep : sep ≠ []) :
    ∀ rest word, contains word sep = false →
      joinWith sep (charLoopAux sep word rest) = word ++ rest := by
  intro rest
  induction rest with
  | nil =>
    intro word hw
    show joinWith sep [word] = word ++ []
    rw [List.append_nil]
    rfl
  | cons x r ih =>
    intro word hw
    simp only [charLoopAux]
    by_cases hc : contains (word ++ [x]) sep = true
    · rw [if_pos hc]
      obtain ⟨hple, hfind, htake⟩ := first_occurrence_at_end hw hc
      have hErase : eraseAtFind (word ++ [x]) sep =
          (word ++ [x]).take (word.length + 1 - sep.length) := by
        simp only [eraseAtFind, hfind]
        rw [List.drop_eq_nil_of_le (by simp; omega), List.append_nil]
      rw [hErase]
      cases hcl : charLoopAux sep [] r with
      | nil => exact absurd hcl (charLoopAux_ne_nil sep r [])
      | cons s r2 =>
        show (word ++ [x]).take (word.length + 1 - sep.length) ++ sep ++
          joinWith sep (s :: r2) = word ++ x :: r
        rw [← hcl, ih [] (contains_nil_eq_false hsep), List.nil_append, htake]
        simp
    · rw [if_neg hc]
      rw [ih (word ++ [x]) (Bool.eq_false_iff.mpr hc)]
      simp

theorem charLoopAux_length {sep : List Char} (hsep : sep ≠ []) :
    ∀ rest word, contains word sep = false →
      (charLoopAux sep word rest).length = greedyCount (word ++ rest) sep + 1 := by
  intro rest
  induction rest with
  | nil =>
    intro word hw
    show 1 = greedyCount (word ++ []) sep + 1
    rw [List.append_nil, greedyCount_eq_none (contains_false_strFind hw)]
  | cons x r ih =>
    intro word hw
    simp only [charLoopAux]
    by_cases hc : contains (word ++ [x]) sep = true
    · rw [if_pos hc]
      have hfind := @strFind_extend word r sep x hw hc
      obtain ⟨hple, -, -⟩ := first_occurrence_at_end hw hc
      rw [List.length_cons, ih [] (contains_nil_eq_false hsep), List.nil_append]
      have hgc : greedyCount (word ++ x :: r) sep = greedyCount r sep + 1 := by
        have hw2 : word ++ x :: r = (word ++ [x]) ++ r := by simp
        rw [hw2, greedyCount_eq_some hsep hfind]
        have hidx : word.length + 1 - sep.length + sep.length =
            (word ++ [x]).length + 0 := by
          simp
          omega
        rw [hidx, List.drop_append, List.drop_zero]
      rw [hgc]
    · rw [if_neg hc]
      rw [ih (word ++ [x]) (Bool.eq_false_iff.mpr hc)]
      have : (word ++ [x]) ++ r = word ++ x :: r := by simp
      rw [this]

theorem separate_multi_eq {T sep : List Char} (h2 : 2 ≤ sep.length) :
    separate T sep false = some (charLoopAux sep [] T) := by
  cases sep with
  | nil => simp at h2
  | cons a t =>
    cases t with
    | nil => simp at h2
    | cons b t2 =>
      show some (postOmit false (charLoopAux (a :: b :: t2) [] T)) = _
      rw [postOmit, if_neg (by simp)]

/-- C1 counterexample: `findAll` with an empty target returns one match
per offset 0 .. length inclusive, so an empty text yields 1 position (the
claim says 0) and a two-character text yields 3 positions (the claim says
2). -/
theorem claim1_counterexample :
    (findAll ([] : List Char) []).length = 1 ∧
    (findAll ['a', 'b'] []).length = 3 ∧
    (findAll ([] : List Char) []).length ≠ 0 ∧
    (findAll ['a', 'b'] []).length ≠ (['a', 'b'] : List Char).length := by
  decide

/-- C1 amended: for every text T the empty-target scan of `findAll`
matches at every offset 0, 1, ..., T.length() inclusive, returning
exactly T.length() + 1 positions; in particular the empty text yields one
position, not zero. -/
theorem claim1_amended (T : List Char) :
    findAll T [] = List.range (T.length + 1) ∧
    (findAll T []).length = T.length + 1 := by
  have h : findAll T [] = List.range (T.length + 1) := by
    rw [findAll_eq_filter, List.filter_eq_self]
    intro a ha
    rw [List.mem_range] at ha
    simp [occursAt]
    omega
  exact ⟨h, by rw [h, List.length_range]⟩

/-- C2 counterexample: for the empty text with the one-character delimiter
the getline path produces no segments while the claim demands
`findAll.length + 1 = 1`; for text aaa and delimiter aa the loop produces
2 segments while overlapping matches make `findAll.length + 1 = 3`. -/
theorem claim2_counterexample :
    (separate ([] : List Char) [','] false).map List.length ≠
      some ((findAll ([] : List Char) [',']).length + 1) ∧
    (separate "aaa".toList "aa".toList false).map List.length ≠
      some ((findAll "aaa".toList "aa".toList).length + 1) := by
  decide

/-- C2 amended: for a one-character delimiter D and a non-empty text T
that does not end with D, separate(T, D, false) returns exactly
findAll(T, D).length + 1 segments; for a delimiter of length at least 2
it returns exactly k + 1 segments, where k is the number of occurrences
found by non-overlapping left-to-right scanning (`greedyCount`).  The
original count fails for an empty text or a trailing one-character
delimiter (the getline path emits no trailing empty segment) and for
overlapping occurrences of a longer delimiter. -/
theorem claim2_amended (T D : List Char) :
    (∀ c, D = [c] → T ≠ [] → T.getLast? ≠ some c →
      (separate T D false).map List.length =
        some ((findAll T D).length + 1)) ∧
    (2 ≤ D.length →
      (separate T D false).map List.length =
        some (greedyCount T D + 1)) := by
  constructor
  · rintro c rfl h0 h1
    rw [separate_single_eq h1]
    simp only [Option.map_some']
    rw [getlineSplit_length h0 h1, findAll_single_length]
  · intro h2
    have hne : D ≠ [] := by
      intro h
      rw [h] at h2
      simp at h2
    rw [separate_multi_eq h2]
    simp only [Option.map_some']
    rw [charLoopAux_length hne T [] (contains_nil_eq_false hne),
      List.nil_append]

/-- C2 witness: the comma split of a,b has 2 = 1 + 1 segments, and the
two-character split of aXYb has 2 = 1 + 1 segments. -/
theorem claim2_witness :
    (separate "a,b".toList [','] false).map List.length =
      some ((findAll "a,b".toList [',']).length + 1) ∧
    (separate "aXYb".toList "XY".toList false).map List.length =
      some (greedyCount "aXYb".toList "XY".toList + 1) :=
  ⟨(claim2_amended "a,b".toList [',']).1 ',' rfl (by decide) (by decide),
   (claim2_amended "aXYb".toList "XY".toList).2 (by decide)⟩

/-- C3 counterexample: separating the text a-comma by the comma delimiter
yields the single segment a, and rejoining with the delimiter gives back
a, not the original text: the trailing delimiter is lost. -/
theorem claim3_counterexample :
    (separate "a,".toList [','] false).map (joinWith [',']) ≠
      some "a,".toList := by
  decide

/-- C3 amended: rejoining the segments of separate(T, D, false) with D
reconstructs T whenever D has length at least 2, and for a one-character
delimiter whenever T does not end with D; a trailing one-character
delimiter is lost by the getline tokenization. -/
theorem claim3_amended (T D : List Char) :
    (∀ c, D = [c] → T.getLast? ≠ some c →
      (separate T D false).map (joinWith D) = some T) ∧
    (2 ≤ D.length → (separate T D false).map (joinWith D) = some T) := by
  constructor
  · rintro c rfl h1
    rw [separate_single_eq h1]
    simp only [Option.map_some']
    rw [joinWith_getlineSplit h1]
  · intro h2
    have hne : D ≠ [] := by
      intro h
      rw [h] at h2
      simp at h2
    rw [separate_multi_eq h2]
    simp only [Option.map_some']
    rw [joinWith_charLoopAux hne T [] (contains_nil_eq_false hne),
      List.nil_append]

/-- C3 witness: rejoining the comma split of a,b gives back a,b, and
rejoining the XY split of aXYb gives back aXYb. -/
theorem claim3_witness :
    (separate "a,b".toList [','] false).map (joinWith [',']) =
      some "a,b".toList ∧
    (separate "aXYb".toList "XY".toList false).map
        (joinWith "XY".toList) = some "aXYb".toList :=
  ⟨(claim3_amended "a,b".toList [',']).1 ',' rfl (by decide),
   (claim3_amended "aXYb".toList "XY".toList).2 (by decide)⟩

/-- C4 counterexample: for a one-character text `2*0 < 1`, so the claim
demands `trim(T, 0) = T`, but the source comparison
`charsToTrim >= str.length()/2` uses integer division and `0 >= 1/2`
holds, so the result is empty. -/
theorem claim4_counterexample : trim ['a'] 0 ≠ ['a'] := by
  decide

/-- C4 amended: trim(T, n) with non-negative n returns the empty string
when n is at least floor(T.length()/2) (integer division, as computed by
the source) and otherwise the substring of T from offset n up to but not
including offset T.length()-n; consequently trim(T, 0) = T exactly for
texts whose length is not 1, while a one-character text is erased. -/
theorem claim4_amended :
    (∀ (T : List Char) (n : Int), 0 ≤ n →
      (T.length / 2 ≤ n.toNat → trim T n = []) ∧
      (n.toNat < T.length / 2 →
        trim T n = (T.take (T.length - n.toNat)).drop n.toNat)) ∧
    (∀ T : List Char, T.length ≠ 1 → trim T 0 = T) := by
  constructor
  · intro T n hn
    constructor
    · intro h
      rw [trim, if_neg (not_lt.mpr hn), if_pos h]
    · intro h
      rw [trim, if_neg (not_lt.mpr hn), if_neg (not_le.mpr h)]
      rw [List.drop_take]
      congr 1
      omega
  · intro T hT
    rw [trim, if_neg (by decide : ¬ (0 : Int) < 0)]
    rw [show (0 : Int).toNat = 0 from rfl]
    by_cases h : T.length / 2 ≤ 0
    · rw [if_pos h]
      have h0 : T.length = 0 := by omega
      rw [List.length_eq_zero] at h0
      rw [h0]
    · rw [if_neg h]
      simp

/-- C4 witness: trim of a four-character text by 1 keeps the middle two
characters, and trim by 0 of a two-character text is the identity. -/
theorem claim4_witness :
    trim "abcd".toList 1 = ['b', 'c'] ∧ trim "ab".toList 0 = "ab".toList :=
  ⟨by
    rw [(claim4_amended.1 "abcd".toList 1 (by decide)).2 (by decide)]
    rfl,
   claim4_amended.2 "ab".toList (by decide)⟩

/-- C5: evaluating `trim` at a negative count shows the source silently
returns the text unchanged (its TODO comment stands where the
InvalidArgument handling required by the claim should be). -/
theorem claim5_theorem : trim ['a', 'b', 'c'] (-1) = ['a', 'b', 'c'] := by
  decide

/-- C6: evaluating `wrapToWidth` at the claimed inputs: the hard cut
continues at `substr(wrapWidth+1)`, dropping one character per cut, and
the final-newline bookkeeping appends an extra newline when the final
line value is empty, so the outputs differ from the claimed strings (and
from the expectations in the repository test suite). -/
theorem claim6_theorem :
    wrapToWidth "111222333".toList 3 = "111\n223\n3".toList ∧
    wrapToWidth "111112".toList 5 = "11111\n\n".toList ∧
    wrapToWidth "111222333".toList 3 ≠ "111\n222\n333".toList ∧
    wrapToWidth "111112".toList 5 ≠ "11111\n2".toList := by
  decide

/-- C7: evaluating `wrapToWidth` at width 0 and at a negative width: a
width of 0 emits one newline per character plus a final newline instead
of an empty result, and a negative width passes the text through because
the signed width converts to a huge unsigned value in the length guard. -/
theorem claim7_theorem :
    wrapToWidth "111222333".toList 0 = List.replicate 10 '\n' ∧
    wrapToWidth ['a', 'b'] (-1) = ['a', 'b'] ∧
    wrapToWidth "111222333".toList 0 ≠ [] := by
  decide

theorem floatLoopFrom_true_iff :
    ∀ r : List Char, (floatLoopFrom true r = some true ↔ ∀ c ∈ r, isDigitC c = true) := by
  intro r
  induction r with
  | nil => simp [floatLoopFrom]
  | cons c t ih =>
    simp only [floatLoopFrom]
    rw [if_neg (by simp)]
    by_cases hd : isDigitC c = true
    · rw [if_pos hd, ih]
      simp [List.forall_mem_cons, hd]
    · rw [if_neg hd]
      simp [List.forall_mem_cons, hd]

theorem digits_no_point :
    ∀ r : List Char, (∀ c ∈ r, isDigitC c = true) ↔
      (r.count '.' = 0 ∧ ∀ c ∈ r, (isDigitC c || c == '.') = true) := by
  intro r
  induction r with
  | nil => simp
  | cons c t ih =>
    by_cases hc : c = '.'
    · subst hc
      simp [List.forall_mem_cons, List.count_cons_self,
        show isDigitC '.' = false from rfl]
    · simp [List.forall_mem_cons, List.count_cons, hc, ih]
      tauto

theorem floatLoopFrom_false_iff :
    ∀ r : List Char, (floatLoopFrom false r = some true ↔
      (r.count '.' = 1 ∧ ∀ c ∈ r, (isDigitC c || c == '.') = true)) := by
  intro r
  induction r with
  | nil => simp [floatLoopFrom]
  | cons c t ih =>
    simp only [floatLoopFrom]
    by_cases hc : c = '.'
    · subst hc
      rw [if_pos (by simp)]
      rw [floatLoopFrom_true_iff, digits_no_point]
      simp [List.forall_mem_cons, List.count_cons_self,
        show isDigitC '.' = false from rfl]
    · rw [if_neg (by simp [hc])]
      by_cases hd : isDigitC c = true
      · rw [if_pos hd, ih]
        simp [List.forall_mem_cons, List.count_cons, hc, hd]
      · rw [if_neg hd]
        simp [List.forall_mem_cons, hd, hc]

set_option maxRecDepth 8000 in
/-- C8 amended: isFloat(T) is true exactly when T matches the grammar
minus-sign? digit* decimalPoint digit* with exactly one decimal point and
the std::from_chars conversion succeeds, i.e. the literal contains at
least one digit and the parsed magnitude is within the double range
(overflow yields false rather than an error); in particular .2 is a
float, 7.0.0 is not, a digits-only literal such as 15 is not, and the
bare point, although it matches the spec grammar, is not. -/
theorem claim8_amended :
    (∀ s : List Char, isFloat s = (specFloatGrammar s && fromCharsFloatOk s)) ∧
    isFloat "1.5".toList = true ∧ isFloat ".2".toList = true ∧
    isFloat "7.0.0".toList = false ∧ isFloat "15".toList = false := by
  refine ⟨?_, rfl, rfl, rfl, rfl⟩
  intro s
  show (match floatLoopFrom false (dropNeg s) with
    | some true => fromCharsFloatOk s
    | _ => false) = (specFloatGrammar s && fromCharsFloatOk s)
  have hGr : specFloatGrammar s =
      (((dropNeg s).count '.' == 1) &&
        (dropNeg s).all (fun c => isDigitC c || c == '.')) := rfl
  cases hl : floatLoopFrom false (dropNeg s) with
  | none =>
    have hne : ¬((dropNeg s).count '.' = 1 ∧
        ∀ c ∈ dropNeg s, (isDigitC c || c == '.') = true) := by
      intro hcon
      have h2 := (floatLoopFrom_false_iff (dropNeg s)).mpr hcon
      rw [hl] at h2
      exact absurd h2 (by simp)
    have hB : specFloatGrammar s = false := by
      rw [hGr]
      apply Bool.eq_false_iff.mpr
      intro hB2
      rw [Bool.and_eq_true] at hB2
      exact hne ⟨by simpa using hB2.1, List.all_eq_true.mp hB2.2⟩
    show false = _
    rw [hB, Bool.false_and]
  | some b =>
    cases b with
    | false =>
      have hne : ¬((dropNeg s).count '.' = 1 ∧
          ∀ c ∈ dropNeg s, (isDigitC c || c == '.') = true) := by
        intro hcon
        have h2 := (floatLoopFrom_false_iff (dropNeg s)).mpr hcon
        rw [hl] at h2
        exact absurd h2 (by simp)
      have hB : specFloatGrammar s = false := by
        rw [hGr]
        apply Bool.eq_false_iff.mpr
        intro hB2
        rw [Bool.and_eq_true] at hB2
        exact hne ⟨by simpa using hB2.1, List.all_eq_true.mp hB2.2⟩
      show false = _
      rw [hB, Bool.false_and]
    | true =>
      obtain ⟨hcount, hall⟩ := (floatLoopFrom_false_iff (dropNeg s)).mp hl
      have hB : specFloatGrammar s = true := by
        rw [hGr, Bool.and_eq_true]
        exact ⟨by simpa using hcount, List.all_eq_true.mpr hall⟩
      show fromCharsFloatOk s = _
      rw [hB, Bool.true_and]

set_option maxRecDepth 8000 in
/-- C8 counterexample: the single period matches the spec grammar
minus? digit* point digit* with exactly one point and a magnitude (zero)
inside the double range, yet `isFloat` rejects it because std::from_chars
requires at least one digit. -/
theorem claim8_counterexample :
    isFloat ['.'] = false ∧ specFloatGrammar ['.'] = true ∧
    doubleRangeOk ['.'] = true :=
  ⟨rfl, rfl, rfl⟩

/-- C9: evaluating `countLines` on a one-character text with no newline:
the getline loop reads one line, so the result is 1 while the text
contains 0 newline characters. -/
theorem claim9_theorem :
    countLines ['a'] = 1 ∧ List.count '\n' ['a'] = 0 := by
  decide

/-- C10: the empty-final-segment access in `separate` is reachable: for
the one-character text equal to the separator (and likewise for two
separators), the getline segments are non-empty, so the emptiness guard
passes, but the last segment is the empty string, so
`separatedStrings.back().back()` reads the last character of an empty
string; the model returns `none` for this undefined behavior. -/
theorem claim10_theorem :
    getlineSplit ',' [','] = [[]] ∧
    (getlineSplit ',' [',']).getLast? = some [] ∧
    separate [','] [','] true = none ∧
    getlineSplit ',' [',', ','] = [[], []] ∧
    separate [',', ','] [','] true = none := by
  decide

end stevensStringLib
